import Mathlib

/-!
Verification of the penumbra versioned key-value storage engine.

Part 1 models the key-routing layer of
`src/crates/storage/src/store/multistore.rs` (`MultistoreConfig` with
`find_substore`, `route_key_str`, `route_key_bytes`).  Rust `&str` keys are
embedded as `List Char` and `&[u8]` keys as `List Nat`; `str::as_bytes` is
the UTF-8 encoding `utf8` below.  The `.expect(..)` calls on
`strip_prefix` are embedded by returning an `Option`, where `none` marks
the panic branch.

Part 2 models the storage engine exercised by `src/storage2/tests/basic.rs`
(`Storage`, `Snapshot`, `StateDelta`); its implementation is not part of
the sources here, so it is modelled from the specification document
(single main substore, as in the end-to-end scenarios of the spec).
-/

set_option autoImplicit false

namespace Penumbra

/-- UTF-8 encoding of a single code point, as in Rust `char::encode_utf8`.
Rust computes each byte with shifts and masks, e.g. `0xC0 | (c >> 6)` and
`0x80 | (c & 0x3F)`; since `c >> 6 = c / 0x40`, `c & 0x3F = c % 0x40`, and
the or-ed ranges are disjoint, those are written here as `+`, `/`, `%`. -/
def utf8c (c : Nat) : List Nat :=
  if c < 0x80 then [c]
  else if c < 0x800 then [0xC0 + c / 0x40, 0x80 + c % 0x40]
  else if c < 0x10000 then [0xE0 + c / 0x1000, 0x80 + c / 0x40 % 0x40, 0x80 + c % 0x40]
  else [0xF0 + c / 0x40000, 0x80 + c / 0x1000 % 0x40, 0x80 + c / 0x40 % 0x40, 0x80 + c % 0x40]

/-- UTF-8 encoding of a string (Rust `str::as_bytes`). -/
def utf8 (s : List Char) : List Nat :=
  s.flatMap fun c => utf8c c.toNat

/-- Rust `starts_with`: `leadsWith key p` is true when `p` is an initial
segment of `key`. -/
def leadsWith {α : Type} [DecidableEq α] : List α → List α → Bool
  | _, [] => true
  | [], _ :: _ => false
  | a :: as, b :: bs => a = b && leadsWith as bs

/-- Rust `strip_prefix`: remove the initial segment `p` from `l`, or `none`
when `p` is not an initial segment of `l`. -/
def stripPfx {α : Type} [DecidableEq α] : List α → List α → Option (List α)
  | [], l => some l
  | _ :: _, [] => none
  | b :: bs, a :: as => if a = b then stripPfx bs as else none

theorem leadsWith_iff {α : Type} [DecidableEq α] (l p : List α) :
    leadsWith l p = true ↔ p <+: l := by
  induction p generalizing l with
  | nil => simp [leadsWith]
  | cons b bs ih =>
    cases l with
    | nil => simp [leadsWith]
    | cons a as =>
      simp only [leadsWith, Bool.and_eq_true, decide_eq_true_eq, List.cons_prefix_cons]
      exact and_congr eq_comm (ih as)

theorem stripPfx_eq_some {α : Type} [DecidableEq α] (p l r : List α) :
    stripPfx p l = some r ↔ l = p ++ r := by
  induction p generalizing l with
  | nil => simp [stripPfx]
  | cons b bs ih =>
    cases l with
    | nil => simp [stripPfx]
    | cons a as =>
      by_cases hab : a = b
      · subst hab
        simp [stripPfx, ih]
      · simp [stripPfx, hab, Ne.symm hab]

theorem stripPfx_isSome {α : Type} [DecidableEq α] (p l : List α) :
    (stripPfx p l).isSome = true ↔ p <+: l := by
  constructor
  · intro h
    obtain ⟨r, hr⟩ := Option.isSome_iff_exists.mp h
    exact ⟨r, ((stripPfx_eq_some p l r).mp hr).symm⟩
  · rintro ⟨r, hr⟩
    exact Option.isSome_iff_exists.mpr ⟨r, (stripPfx_eq_some p l r).mpr hr.symm⟩

theorem stripPfx_append {α : Type} [DecidableEq α] (p r : List α) :
    stripPfx p (p ++ r) = some r :=
  (stripPfx_eq_some p (p ++ r) r).mpr rfl

theorem stripPfx_eq_none {α : Type} [DecidableEq α] (p l : List α) :
    stripPfx p l = none ↔ ¬ p <+: l := by
  rw [← stripPfx_isSome, Bool.not_eq_true, Option.not_isSome, Option.isNone_iff_eq_none]

theorem utf8c_ne_nil (c : Nat) : utf8c c ≠ [] := by
  unfold utf8c
  split_ifs <;> simp

/-- UTF-8 is a prefix code: the encoding of one code point followed by
arbitrary bytes determines the code point (and the remaining bytes).  The
length of an encoded code point is recoverable from its first byte. -/
theorem utf8c_code (a b : Nat) (xs ys : List Nat)
    (h : utf8c a ++ xs = utf8c b ++ ys) : a = b ∧ xs = ys := by
  unfold utf8c at h
  split_ifs at h <;> simp_all <;> omega

theorem char_toNat_inj (a b : Char) (h : a.toNat = b.toNat) : a = b := by
  have := congrArg Char.ofNat h
  rwa [Char.ofNat_toNat, Char.ofNat_toNat] at this

theorem utf8_ne_nil (c : Char) (s : List Char) : utf8 (c :: s) ≠ [] := by
  have h := utf8c_ne_nil c.toNat
  simp only [utf8, List.flatMap_cons]
  intro hcon
  exact h (List.append_eq_nil.mp hcon).1

theorem utf8_cons (c : Char) (s : List Char) :
    utf8 (c :: s) = utf8c c.toNat ++ utf8 s := by
  simp [utf8]

theorem utf8_append (s t : List Char) : utf8 (s ++ t) = utf8 s ++ utf8 t := by
  simp [utf8]

theorem utf8_inj (s t : List Char) (h : utf8 s = utf8 t) : s = t := by
  induction s generalizing t with
  | nil =>
    cases t with
    | nil => rfl
    | cons b bs => exact absurd h.symm (utf8_ne_nil b bs)
  | cons a as ih =>
    cases t with
    | nil => exact absurd h (utf8_ne_nil a as)
    | cons b bs =>
      rw [utf8_cons, utf8_cons] at h
      obtain ⟨h1, h2⟩ := utf8c_code _ _ _ _ h
      exact char_toNat_inj a b h1 ▸ congrArg (a :: ·) (ih bs h2)

theorem utf8_isPrefixOf (s t : List Char) : utf8 s <+: utf8 t ↔ s <+: t := by
  constructor
  · intro h
    induction s generalizing t with
    | nil => exact List.nil_prefix
    | cons a as ih =>
      cases t with
      | nil =>
        obtain ⟨r, hr⟩ := h
        exact absurd (List.append_eq_nil.mp hr).1 (utf8_ne_nil a as)
      | cons b bs =>
        obtain ⟨r, hr⟩ := h
        rw [utf8_cons, utf8_cons, List.append_assoc] at hr
        obtain ⟨h1, h2⟩ := utf8c_code _ _ _ _ hr
        exact char_toNat_inj a b h1 ▸ List.cons_prefix_cons.mpr ⟨rfl, ih bs ⟨r, h2⟩⟩
  · rintro ⟨u, hu⟩
    exact ⟨utf8 u, by rw [← utf8_append, hu]⟩

theorem utf8_stripPfx (p l : List Char) :
    stripPfx (utf8 p) (utf8 l) = Option.map utf8 (stripPfx p l) := by
  cases hsl : stripPfx p l with
  | some r =>
    have : l = p ++ r := (stripPfx_eq_some p l r).mp hsl
    subst this
    rw [utf8_append, stripPfx_append]
    rfl
  | none =>
    have hnp : ¬ p <+: l := (stripPfx_eq_none p l).mp hsl
    have : stripPfx (utf8 p) (utf8 l) = none :=
      (stripPfx_eq_none _ _).mpr fun hc => hnp ((utf8_isPrefixOf p l).mp hc)
    rw [this]
    rfl

/-- Substore descriptor; only the routing-relevant field is embedded.  In
the Rust source the field is the `String` named with the reserved word for
an initial segment, here `pfx : List Char`. -/
structure SubstoreConfig where
  pfx : List Char
deriving DecidableEq, Repr

/-- `MultistoreConfig` from `src/crates/storage/src/store/multistore.rs`:
a collection of substores, each with a unique key namespace, plus the
default main store. -/
structure MultistoreConfig where
  main_store : SubstoreConfig
  substores : List SubstoreConfig
deriving DecidableEq, Repr

/-- `MultistoreConfig::find_substore`: linear search for the first substore
whose namespace string is an initial byte segment of the key; the main
store when none matches. -/
def MultistoreConfig.find_substore (cfg : MultistoreConfig) (key : List Nat) : SubstoreConfig :=
  (cfg.substores.find? fun s => leadsWith key (utf8 s.pfx)).getD cfg.main_store

/-- `MultistoreConfig::route_key_str`.  The `strip_prefix(..).expect(..)`
is embedded as an `Option`, `none` marking the panic branch. -/
def MultistoreConfig.route_key_str (cfg : MultistoreConfig) (key : List Char) :
    Option (List Char × SubstoreConfig) :=
  let config := cfg.find_substore (utf8 key)
  if key = config.pfx then some (key, cfg.main_store)
  else (stripPfx config.pfx key).map fun k => (k, config)

/-- `MultistoreConfig::route_key_bytes`, with the same `Option` embedding
of the `expect` call. -/
def MultistoreConfig.route_key_bytes (cfg : MultistoreConfig) (key : List Nat) :
    Option (List Nat × SubstoreConfig) :=
  let config := cfg.find_substore key
  if key = utf8 config.pfx then some (key, cfg.main_store)
  else (stripPfx (utf8 config.pfx) key).map fun k => (k, config)

/-- `MultistoreConfig::default`: a main store with the empty namespace and
no substores. -/
def mcDefault : MultistoreConfig :=
  { main_store := { pfx := [] }, substores := [] }

/-- Specification of `List.find?` by position: either some element tests
true and the first such element is returned, or all test false. -/
theorem find?_spec {α : Type} (p : α → Bool) (l : List α) :
    (∃ i, ∃ h : i < l.length, p (l.get ⟨i, h⟩) = true ∧
      (∀ j (hj : j < i), p (l.get ⟨j, Nat.lt_trans hj h⟩) = false) ∧
      l.find? p = some (l.get ⟨i, h⟩)) ∨
    ((∀ a ∈ l, p a = false) ∧ l.find? p = none) := by
  induction l with
  | nil => exact Or.inr ⟨by simp, rfl⟩
  | cons a t ih =>
    by_cases ha : p a = true
    · exact Or.inl ⟨0, Nat.succ_pos _, ha,
        fun j hj => absurd hj (Nat.not_lt_zero j), List.find?_cons_of_pos _ ha⟩
    · have ha' : p a = false := Bool.eq_false_iff.mpr ha
      rcases ih with ⟨i, h, hp, hbef, hfind⟩ | ⟨hall, hnone⟩
      · refine Or.inl ⟨i + 1, Nat.succ_lt_succ h, ?_, ?_, ?_⟩
        · exact hp
        · intro j hj
          cases j with
          | zero => exact ha'
          | succ j => exact hbef j (Nat.lt_of_succ_lt_succ hj)
        · rw [List.find?_cons_of_neg _ ha]
          exact hfind
      · refine Or.inr ⟨?_, ?_⟩
        · intro x hx
          rcases List.mem_cons.mp hx with hx | hx
          · exact hx ▸ ha'
          · exact hall x hx
        · rw [List.find?_cons_of_neg _ ha]
          exact hnone

/-- Either the routed substore's namespace is an initial segment of the
key, or routing fell back to the main store. -/
theorem find_substore_cases (cfg : MultistoreConfig) (key : List Nat) :
    utf8 (cfg.find_substore key).pfx <+: key ∨ cfg.find_substore key = cfg.main_store := by
  unfold MultistoreConfig.find_substore
  cases hf : cfg.substores.find? fun s => leadsWith key (utf8 s.pfx) with
  | none => exact Or.inr rfl
  | some s =>
    have hps := List.find?_some hf
    simp only [] at hps
    exact Or.inl ((leadsWith_iff key (utf8 s.pfx)).mp hps)

theorem utf8_nil : utf8 [] = [] := rfl

theorem route_key_str_eq (cfg : MultistoreConfig) (key : List Char) :
    cfg.route_key_str key =
      if key = (cfg.find_substore (utf8 key)).pfx then some (key, cfg.main_store)
      else (stripPfx (cfg.find_substore (utf8 key)).pfx key).map
        fun k => (k, cfg.find_substore (utf8 key)) := rfl

theorem route_key_bytes_eq (cfg : MultistoreConfig) (key : List Nat) :
    cfg.route_key_bytes key =
      if key = utf8 (cfg.find_substore key).pfx then some (key, cfg.main_store)
      else (stripPfx (utf8 (cfg.find_substore key).pfx) key).map
        fun k => (k, cfg.find_substore key) := rfl

/-- C2: `find_substore` scans the substores in declared order and returns
the first substore whose namespace string is a byte-initial-segment of the
key, and returns the main substore when no substore matches; being a total
function, it assigns every key exactly one owning substore. -/
theorem find_substore_first_match (cfg : MultistoreConfig) (key : List Nat) :
    (∃ i, ∃ h : i < cfg.substores.length,
      utf8 (cfg.substores.get ⟨i, h⟩).pfx <+: key ∧
      (∀ j, ∀ hj : j < i, ¬ utf8 (cfg.substores.get ⟨j, Nat.lt_trans hj h⟩).pfx <+: key) ∧
      cfg.find_substore key = cfg.substores.get ⟨i, h⟩) ∨
    ((∀ s ∈ cfg.substores, ¬ utf8 s.pfx <+: key) ∧
      cfg.find_substore key = cfg.main_store) := by
  rcases find?_spec (fun s => leadsWith key (utf8 s.pfx)) cfg.substores with
    ⟨i, h, hp, hbef, hfind⟩ | ⟨hall, hnone⟩
  · refine Or.inl ⟨i, h, ?_, ?_, ?_⟩
    · exact (leadsWith_iff _ _).mp hp
    · intro j hj hc
      have hb : leadsWith key (utf8 (cfg.substores.get ⟨j, Nat.lt_trans hj h⟩).pfx) = false :=
        hbef j hj
      rw [(leadsWith_iff _ _).mpr hc] at hb
      exact Bool.noConfusion hb
    · unfold MultistoreConfig.find_substore
      rw [hfind]
      rfl
  · refine Or.inr ⟨?_, ?_⟩
    · intro s hs hc
      have hb : leadsWith key (utf8 s.pfx) = false := hall s hs
      rw [(leadsWith_iff _ _).mpr hc] at hb
      exact Bool.noConfusion hb
    · unfold MultistoreConfig.find_substore
      rw [hnone]
      rfl

/-- Substore configuration in which one substore's namespace is a proper
initial segment of another's. -/
def cfgOverlap : MultistoreConfig :=
  { main_store := { pfx := [] },
    substores := [{ pfx := ['a'] }, { pfx := ['a', 'b'] }] }

/-- C3 counterexample: the key "ab" (bytes `[97, 98]`) exactly equals the
namespace of the second substore, yet routing does not fall back to main:
the first substore ("a") wins the linear scan, the key is distinct from
that substore's namespace, so the request is routed to the first substore
with "a" stripped. -/
theorem route_key_eq_other_substore_counterexample :
    SubstoreConfig.mk ['a', 'b'] ∈ cfgOverlap.substores ∧
    [97, 98] = utf8 (SubstoreConfig.mk ['a', 'b']).pfx ∧
    cfgOverlap.route_key_bytes [97, 98] = some ([98], SubstoreConfig.mk ['a']) ∧
    SubstoreConfig.mk ['a'] ≠ cfgOverlap.main_store ∧
    cfgOverlap.route_key_str ['a', 'b'] = some (['b'], SubstoreConfig.mk ['a']) := by
  decide

/-- C3 amended: the fallback-to-main comparison is made against the prefix
of the substore that wins the scan (`find_substore`), not against every
substore's namespace.  If the key equals the winning substore's namespace
the main store receives the original key; otherwise, whenever that
namespace is an initial segment of the key, the winning substore receives
the key with the namespace stripped. -/
theorem route_key_owner (cfg : MultistoreConfig) (bkey : List Nat) (skey : List Char) :
    (bkey = utf8 (cfg.find_substore bkey).pfx →
      cfg.route_key_bytes bkey = some (bkey, cfg.main_store)) ∧
    (bkey ≠ utf8 (cfg.find_substore bkey).pfx →
      utf8 (cfg.find_substore bkey).pfx <+: bkey →
      ∃ rest, bkey = utf8 (cfg.find_substore bkey).pfx ++ rest ∧
        cfg.route_key_bytes bkey = some (rest, cfg.find_substore bkey)) ∧
    (skey = (cfg.find_substore (utf8 skey)).pfx →
      cfg.route_key_str skey = some (skey, cfg.main_store)) ∧
    (skey ≠ (cfg.find_substore (utf8 skey)).pfx →
      (cfg.find_substore (utf8 skey)).pfx <+: skey →
      ∃ rest, skey = (cfg.find_substore (utf8 skey)).pfx ++ rest ∧
        cfg.route_key_str skey = some (rest, cfg.find_substore (utf8 skey))) := by
  refine ⟨?_, ?_, ?_, ?_⟩
  · intro hk
    rw [route_key_bytes_eq, if_pos hk]
  · intro hk hpfx
    obtain ⟨rest, hrest⟩ := hpfx
    refine ⟨rest, hrest.symm, ?_⟩
    have hstrip : stripPfx (utf8 (cfg.find_substore bkey).pfx) bkey = some rest :=
      (stripPfx_eq_some _ _ _).mpr hrest.symm
    rw [route_key_bytes_eq, if_neg hk, hstrip]
    rfl
  · intro hk
    rw [route_key_str_eq, if_pos hk]
  · intro hk hpfx
    obtain ⟨rest, hrest⟩ := hpfx
    refine ⟨rest, hrest.symm, ?_⟩
    have hstrip : stripPfx (cfg.find_substore (utf8 skey)).pfx skey = some rest :=
      (stripPfx_eq_some _ _ _).mpr hrest.symm
    rw [route_key_str_eq, if_neg hk, hstrip]
    rfl

/-- Witness for the amended C3 theorem: in `cfgOverlap` the key "ac"
(bytes `[97, 99]`) is routed to the substore "a" with the initial "a"
stripped. -/
theorem route_key_owner_witness :
    cfgOverlap.route_key_bytes [97, 99] = some ([99], cfgOverlap.find_substore [97, 99]) := by
  obtain ⟨rest, hrest, hroute⟩ :=
    (route_key_owner cfgOverlap [97, 99] []).2.1 (by decide) (by decide)
  have hfs : cfgOverlap.find_substore [97, 99] = SubstoreConfig.mk ['a'] := by decide
  rw [hfs] at hrest hroute ⊢
  have hu : utf8 (SubstoreConfig.mk ['a']).pfx = [97] := by decide
  rw [hu] at hrest
  have : rest = [99] := by
    simpa using hrest.symm
  rw [this] at hroute
  exact hroute

/-- C7 counterexample: with the default configuration the empty key is not
rejected; both routing functions succeed (no error value exists in this
code path at all). -/
theorem route_key_empty_counterexample :
    (mcDefault.route_key_bytes []).isSome = true ∧
    (mcDefault.route_key_str []).isSome = true := by
  decide

/-- C7 amended: for the empty key, routing does not reject: whenever the
main store's namespace is empty (as in the default configuration), both
routing functions return the main substore with the empty key unchanged.
The code defines no routing error and its routing functions cannot fail on
the empty key. -/
theorem route_key_empty (cfg : MultistoreConfig) (hmain : cfg.main_store.pfx = []) :
    cfg.route_key_bytes [] = some ([], cfg.main_store) ∧
    cfg.route_key_str [] = some ([], cfg.main_store) := by
  have hback : utf8 (cfg.find_substore []).pfx <+: [] ∨ cfg.find_substore [] = cfg.main_store :=
    find_substore_cases cfg []
  have hpfx : utf8 (cfg.find_substore []).pfx = [] := by
    rcases hback with h | h
    · exact List.prefix_nil.mp h
    · rw [h, hmain, utf8_nil]
  constructor
  · rw [route_key_bytes_eq, if_pos hpfx.symm]
  · have hpfxc : (cfg.find_substore (utf8 [])).pfx = [] := by
      have h0 : utf8 (cfg.find_substore (utf8 [])).pfx = [] := by
        rw [utf8_nil]
        exact hpfx
      cases hc : (cfg.find_substore (utf8 [])).pfx with
      | nil => rfl
      | cons a as =>
        rw [hc] at h0
        exact absurd h0 (utf8_ne_nil a as)
    rw [route_key_str_eq, if_pos hpfxc.symm]

/-- Witness for the amended C7 theorem at the default configuration. -/
theorem route_key_empty_witness :
    mcDefault.route_key_bytes [] = some ([], mcDefault.main_store) ∧
    mcDefault.route_key_str [] = some ([], mcDefault.main_store) :=
  route_key_empty mcDefault rfl

/-- C9: when the main store's namespace is empty, the `expect` branch of
both routing functions is unreachable: the substore selected by
`find_substore` always has its namespace as an initial segment of the key
being stripped, so routing never panics (`isSome` in this embedding, where
`none` marks the panic). -/
theorem route_never_panics (cfg : MultistoreConfig) (bkey : List Nat) (skey : List Char)
    (hmain : cfg.main_store.pfx = []) :
    (cfg.route_key_bytes bkey).isSome = true ∧
    (cfg.route_key_str skey).isSome = true := by
  constructor
  · rw [route_key_bytes_eq]
    by_cases hk : bkey = utf8 (cfg.find_substore bkey).pfx
    · rw [if_pos hk]
      rfl
    · rw [if_neg hk]
      have hpfx : utf8 (cfg.find_substore bkey).pfx <+: bkey := by
        rcases find_substore_cases cfg bkey with h | h
        · exact h
        · rw [h, hmain, utf8_nil]
          exact List.nil_prefix
      obtain ⟨r, hr⟩ := hpfx
      have hstrip : stripPfx (utf8 (cfg.find_substore bkey).pfx) bkey = some r :=
        (stripPfx_eq_some _ _ _).mpr hr.symm
      rw [hstrip]
      rfl
  · rw [route_key_str_eq]
    by_cases hk : skey = (cfg.find_substore (utf8 skey)).pfx
    · rw [if_pos hk]
      rfl
    · rw [if_neg hk]
      have hpfx : (cfg.find_substore (utf8 skey)).pfx <+: skey := by
        rcases find_substore_cases cfg (utf8 skey) with h | h
        · exact (utf8_isPrefixOf _ _).mp h
        · rw [h, hmain]
          exact List.nil_prefix
      obtain ⟨r, hr⟩ := hpfx
      have hstrip : stripPfx (cfg.find_substore (utf8 skey)).pfx skey = some r :=
        (stripPfx_eq_some _ _ _).mpr hr.symm
      rw [hstrip]
      rfl

/-- Witness for C9 at the default configuration. -/
theorem route_never_panics_witness :
    (mcDefault.route_key_bytes [0]).isSome = true ∧
    (mcDefault.route_key_str ['a']).isSome = true :=
  route_never_panics mcDefault [0] ['a'] rfl

/-- C10: the string and byte routing functions agree: on a string key they
select the same substore, succeed or fail together, and the stripped
string key UTF-8-encodes to the stripped byte key. -/
theorem route_key_str_bytes_agree (cfg : MultistoreConfig) (key : List Char) :
    Option.map (fun e => (utf8 e.1, e.2)) (cfg.route_key_str key) =
      cfg.route_key_bytes (utf8 key) := by
  rw [route_key_str_eq, route_key_bytes_eq]
  by_cases hk : key = (cfg.find_substore (utf8 key)).pfx
  · rw [if_pos hk, if_pos (congrArg utf8 hk)]
    rfl
  · have hk2 : ¬ utf8 key = utf8 (cfg.find_substore (utf8 key)).pfx :=
      fun hc => hk (utf8_inj _ _ hc)
    rw [if_neg hk, if_neg hk2, utf8_stripPfx]
    cases stripPfx (cfg.find_substore (utf8 key)).pfx key <;> rfl

/-! Part 2: the storage engine (`Storage` / `Snapshot` / `StateDelta`)
exercised by `src/storage2/tests/basic.rs`.  Its implementation is not
among the sources, so it is modelled from the specification document,
restricted (as in the spec's end-to-end scenarios) to the main
empty-namespace substore.  Keys and values are byte strings; ordered maps
are embedded as association lists strictly sorted by key. -/

/-- Keys of the storage engine: byte strings. -/
abbrev Key := List Nat

/-- Values of the storage engine: byte strings. -/
abbrev Val := List Nat

/-- Lexicographic comparison of byte-string keys. -/
def keyCmp : Key → Key → Ordering
  | [], [] => .eq
  | [], _ :: _ => .lt
  | _ :: _, [] => .gt
  | a :: as, b :: bs =>
    if a < b then .lt else if b < a then .gt else keyCmp as bs

/-- Strict lexicographic order on keys. -/
def keyLt (a b : Key) : Prop := keyCmp a b = .lt

instance (a b : Key) : Decidable (keyLt a b) := by
  unfold keyLt
  infer_instance

theorem keyCmp_eq_iff (a b : Key) : keyCmp a b = .eq ↔ a = b := by
  induction a generalizing b with
  | nil => cases b <;> simp [keyCmp]
  | cons x xs ih =>
    cases b with
    | nil => simp [keyCmp]
    | cons y ys =>
      rcases Nat.lt_trichotomy x y with h | h | h
      · have hne : x ≠ y := Nat.ne_of_lt h
        simp [keyCmp, h, hne]
      · subst h
        simp [keyCmp, ih]
      · have hne : x ≠ y := (Nat.ne_of_lt h).symm
        simp [keyCmp, Nat.lt_asymm h, h, hne]

theorem keyCmp_self (a : Key) : keyCmp a a = .eq :=
  (keyCmp_eq_iff a a).mpr rfl

theorem keyCmp_gt_iff (a b : Key) : keyCmp a b = .gt ↔ keyCmp b a = .lt := by
  induction a generalizing b with
  | nil => cases b <;> simp [keyCmp]
  | cons x xs ih =>
    cases b with
    | nil => simp [keyCmp]
    | cons y ys =>
      rcases Nat.lt_trichotomy x y with h | h | h
      · simp [keyCmp, h, Nat.lt_asymm h]
      · subst h
        simp [keyCmp, ih]
      · simp [keyCmp, h, Nat.lt_asymm h]

theorem keyLt_irrefl (a : Key) : ¬ keyLt a a := by
  unfold keyLt
  rw [keyCmp_self]
  exact Ordering.noConfusion

theorem keyLt_trans {a b c : Key} (hab : keyLt a b) (hbc : keyLt b c) : keyLt a c := by
  unfold keyLt at *
  induction a generalizing b c with
  | nil =>
    cases b with
    | nil => exact absurd hab (by simp [keyCmp])
    | cons y ys =>
      cases c with
      | nil => exact absurd hbc (by simp [keyCmp])
      | cons z zs => simp [keyCmp]
  | cons x xs ih =>
    cases b with
    | nil => exact absurd hab (by simp [keyCmp])
    | cons y ys =>
      cases c with
      | nil => exact absurd hbc (by simp [keyCmp])
      | cons z zs =>
        simp only [keyCmp] at hab hbc ⊢
        rcases Nat.lt_trichotomy x y with h1 | h1 | h1
        · rcases Nat.lt_trichotomy y z with h2 | h2 | h2
          · simp [Nat.lt_trans h1 h2]
          · subst h2
            simp [h1]
          · rw [if_neg (Nat.lt_asymm h2), if_pos h2] at hbc
            exact absurd hbc (by simp)
        · subst h1
          rcases Nat.lt_trichotomy x z with h2 | h2 | h2
          · simp [h2]
          · subst h2
            rw [if_neg (Nat.lt_irrefl x), if_neg (Nat.lt_irrefl x)] at hab hbc ⊢
            exact ih hab hbc
          · rw [if_neg (Nat.lt_asymm h2), if_pos h2] at hbc
            exact absurd hbc (by simp)
        · rw [if_neg (Nat.lt_asymm h1), if_pos h1] at hab
          exact absurd hab (by simp)

theorem keyLt_of_keyCmp_lt {a b : Key} (h : keyCmp a b = .lt) : keyLt a b := h

theorem keyLt_of_keyCmp_gt {a b : Key} (h : keyCmp a b = .gt) : keyLt b a :=
  (keyCmp_gt_iff a b).mp h

theorem keyLt_ne {a b : Key} (h : keyLt a b) : a ≠ b := by
  intro hab
  subst hab
  exact keyLt_irrefl a h

/-- Lookup in an association list (leftmost binding wins). -/
def alookup {β : Type} (k : Key) : List (Key × β) → Option β
  | [] => none
  | (k2, v) :: l => if k2 = k then some v else alookup k l

/-- The keys of an association list. -/
def akeys {β : Type} (l : List (Key × β)) : List Key :=
  l.map Prod.fst

/-- An ordered map: an association list strictly sorted by key. -/
def KSorted {β : Type} (l : List (Key × β)) : Prop :=
  l.Pairwise fun a b => keyLt a.1 b.1

theorem KSorted_nil {β : Type} : KSorted ([] : List (Key × β)) :=
  List.Pairwise.nil

theorem KSorted_cons {β : Type} {e : Key × β} {l : List (Key × β)} (h : KSorted (e :: l)) :
    (∀ x ∈ l, keyLt e.1 x.1) ∧ KSorted l :=
  ⟨fun x hx => List.rel_of_pairwise_cons h hx, List.Pairwise.of_cons h⟩

theorem alookup_eq_none {β : Type} {k : Key} {l : List (Key × β)}
    (h : ∀ e ∈ l, e.1 ≠ k) : alookup k l = none := by
  induction l with
  | nil => rfl
  | cons e l ih =>
    obtain ⟨k2, v⟩ := e
    have hk2 : k2 ≠ k := h (k2, v) (List.mem_cons_self _ _)
    simp only [alookup, if_neg hk2]
    exact ih fun e he => h e (List.mem_cons_of_mem _ he)

theorem alookup_eq_none_of_lt {β : Type} {k : Key} {l : List (Key × β)}
    (h : ∀ e ∈ l, keyLt k e.1) : alookup k l = none :=
  alookup_eq_none fun e he => (keyLt_ne (h e he)).symm

/-- In an ordered map, membership and lookup coincide. -/
theorem mem_iff_alookup {β : Type} {k : Key} {v : β} {l : List (Key × β)}
    (hl : KSorted l) : (k, v) ∈ l ↔ alookup k l = some v := by
  induction l with
  | nil => simp [alookup]
  | cons e l ih =>
    obtain ⟨k2, v2⟩ := e
    obtain ⟨hlt, hl2⟩ := KSorted_cons hl
    by_cases hk : k2 = k
    · subst hk
      have hstep : alookup k2 ((k2, v2) :: l) = some v2 := by
        simp [alookup]
      constructor
      · intro hmem
        rcases List.mem_cons.mp hmem with h | h
        · rw [hstep]
          exact congrArg some (Prod.ext_iff.mp h).2.symm
        · exact absurd (hlt _ h) (keyLt_irrefl _)
      · intro hlook
        rw [hstep, Option.some.injEq] at hlook
        exact List.mem_cons.mpr (Or.inl (by rw [hlook]))
    · have hstep : alookup k ((k2, v2) :: l) = alookup k l := by
        simp [alookup, hk]
      rw [hstep, ← ih hl2, List.mem_cons]
      constructor
      · rintro (h | h)
        · exact absurd (Prod.ext_iff.mp h).1.symm hk
        · exact h
      · exact Or.inr

/-- Modelled from the spec: `WriteOp ∈ \x7bPut(bytes), Delete\x7d`, the
entries of a delta's ordered change map; a Delete is a distinct marker so
it can mask a parent's value. -/
inductive WriteOp where
  | put (v : Val)
  | del
deriving DecidableEq, Repr

/-- Keep only the puts of a change map (applying changes to an empty
backing range). -/
def dropDeletes (cs : List (Key × WriteOp)) : List (Key × Val) :=
  cs.filterMap fun e =>
    match e.2 with
    | .put v => some (e.1, v)
    | .del => none

/-- Modelled from the spec: the two-way linear merge of an ordered backing
range with an ordered change map, as used both by merged iteration
("merge-sort ... on key equality overlay wins; deletes are filtered out")
and by commit's application of the flattened ops to the backing store. -/
def mergeW : List (Key × Val) → List (Key × WriteOp) → List (Key × Val)
  | [], cs => dropDeletes cs
  | e :: es, [] => e :: es
  | (k, v) :: es, (k2, op) :: cs =>
    match keyCmp k k2, op with
    | .lt, _ => (k, v) :: mergeW es ((k2, op) :: cs)
    | .eq, .put w => (k2, w) :: mergeW es cs
    | .eq, .del => mergeW es cs
    | .gt, .put w => (k2, w) :: mergeW ((k, v) :: es) cs
    | .gt, .del => mergeW ((k, v) :: es) cs

theorem mergeW_nil_left (cs : List (Key × WriteOp)) : mergeW [] cs = dropDeletes cs := by
  rw [mergeW.eq_def]

theorem mergeW_nil_right (e : Key × Val) (es : List (Key × Val)) :
    mergeW (e :: es) [] = e :: es := by
  rw [mergeW.eq_def]

theorem mergeW_lt {k k2 : Key} (v : Val) (es : List (Key × Val)) (op : WriteOp)
    (cs : List (Key × WriteOp)) (hcmp : keyCmp k k2 = .lt) :
    mergeW ((k, v) :: es) ((k2, op) :: cs) = (k, v) :: mergeW es ((k2, op) :: cs) := by
  rw [mergeW.eq_def]
  simp [hcmp]

theorem mergeW_eq_put {k k2 : Key} (v : Val) (es : List (Key × Val)) (w : Val)
    (cs : List (Key × WriteOp)) (hcmp : keyCmp k k2 = .eq) :
    mergeW ((k, v) :: es) ((k2, .put w) :: cs) = (k2, w) :: mergeW es cs := by
  rw [mergeW.eq_def]
  simp [hcmp]

theorem mergeW_eq_del {k k2 : Key} (v : Val) (es : List (Key × Val))
    (cs : List (Key × WriteOp)) (hcmp : keyCmp k k2 = .eq) :
    mergeW ((k, v) :: es) ((k2, .del) :: cs) = mergeW es cs := by
  rw [mergeW.eq_def]
  simp [hcmp]

theorem mergeW_gt_put {k k2 : Key} (v : Val) (es : List (Key × Val)) (w : Val)
    (cs : List (Key × WriteOp)) (hcmp : keyCmp k k2 = .gt) :
    mergeW ((k, v) :: es) ((k2, .put w) :: cs) = (k2, w) :: mergeW ((k, v) :: es) cs := by
  rw [mergeW.eq_def]
  simp [hcmp]

theorem mergeW_gt_del {k k2 : Key} (v : Val) (es : List (Key × Val))
    (cs : List (Key × WriteOp)) (hcmp : keyCmp k k2 = .gt) :
    mergeW ((k, v) :: es) ((k2, .del) :: cs) = mergeW ((k, v) :: es) cs := by
  rw [mergeW.eq_def]
  simp [hcmp]

/-- Modelled from the spec: flattening two ordered change maps into one,
the second (the layer closer to the top) winning on key equality. -/
def mergeOps : List (Key × WriteOp) → List (Key × WriteOp) → List (Key × WriteOp)
  | [], hs => hs
  | e :: ls, [] => e :: ls
  | (k, o) :: ls, (k2, o2) :: hs =>
    match keyCmp k k2 with
    | .lt => (k, o) :: mergeOps ls ((k2, o2) :: hs)
    | .eq => (k2, o2) :: mergeOps ls hs
    | .gt => (k2, o2) :: mergeOps ((k, o) :: ls) hs

theorem mergeOps_nil_left (hs : List (Key × WriteOp)) : mergeOps [] hs = hs := by
  rw [mergeOps.eq_def]

theorem mergeOps_nil_right (e : Key × WriteOp) (ls : List (Key × WriteOp)) :
    mergeOps (e :: ls) [] = e :: ls := by
  rw [mergeOps.eq_def]

theorem mergeOps_lt {k k2 : Key} (o : WriteOp) (ls : List (Key × WriteOp)) (o2 : WriteOp)
    (hs : List (Key × WriteOp)) (hcmp : keyCmp k k2 = .lt) :
    mergeOps ((k, o) :: ls) ((k2, o2) :: hs) = (k, o) :: mergeOps ls ((k2, o2) :: hs) := by
  rw [mergeOps.eq_def]
  simp [hcmp]

theorem mergeOps_eq {k k2 : Key} (o : WriteOp) (ls : List (Key × WriteOp)) (o2 : WriteOp)
    (hs : List (Key × WriteOp)) (hcmp : keyCmp k k2 = .eq) :
    mergeOps ((k, o) :: ls) ((k2, o2) :: hs) = (k2, o2) :: mergeOps ls hs := by
  rw [mergeOps.eq_def]
  simp [hcmp]

theorem mergeOps_gt {k k2 : Key} (o : WriteOp) (ls : List (Key × WriteOp)) (o2 : WriteOp)
    (hs : List (Key × WriteOp)) (hcmp : keyCmp k k2 = .gt) :
    mergeOps ((k, o) :: ls) ((k2, o2) :: hs) = (k2, o2) :: mergeOps ((k, o) :: ls) hs := by
  rw [mergeOps.eq_def]
  simp [hcmp]

theorem mem_dropDeletes {e : Key × Val} {cs : List (Key × WriteOp)}
    (h : e ∈ dropDeletes cs) : e.1 ∈ akeys cs := by
  induction cs with
  | nil => exact absurd h (List.not_mem_nil e)
  | cons c cs ih =>
    obtain ⟨k2, op⟩ := c
    cases op with
    | put v =>
      simp only [dropDeletes, List.filterMap_cons] at h
      rcases List.mem_cons.mp h with h | h
      · rw [h]
        exact List.mem_cons.mpr (Or.inl rfl)
      · exact List.mem_cons.mpr (Or.inr (ih h))
    | del =>
      simp only [dropDeletes, List.filterMap_cons] at h
      exact List.mem_cons.mpr (Or.inr (ih h))

theorem alookup_dropDeletes (k : Key) (cs : List (Key × WriteOp)) (hcs : KSorted cs) :
    alookup k (dropDeletes cs) =
      match alookup k cs with
      | some (.put v) => some v
      | some .del => none
      | none => none := by
  induction cs with
  | nil => rfl
  | cons e cs ih =>
    obtain ⟨k2, op⟩ := e
    obtain ⟨hlt, hcs2⟩ := KSorted_cons hcs
    by_cases hk : k2 = k
    · subst hk
      cases op with
      | put v => simp [dropDeletes, alookup]
      | del =>
        simp only [dropDeletes, List.filterMap_cons, alookup, if_pos rfl]
        exact alookup_eq_none fun e he => by
          obtain ⟨a, ha, hae⟩ := List.mem_map.mp (mem_dropDeletes he)
          rw [← hae]
          exact (keyLt_ne (hlt a ha)).symm
    · cases op with
      | put v =>
        simp only [dropDeletes, List.filterMap_cons, alookup, if_neg hk]
        exact ih hcs2
      | del =>
        simp only [dropDeletes, List.filterMap_cons, alookup, if_neg hk]
        exact ih hcs2

theorem akeys_cons {β : Type} (e : Key × β) (l : List (Key × β)) :
    akeys (e :: l) = e.1 :: akeys l := rfl

theorem mem_akeys_of_mem {β : Type} {e : Key × β} {l : List (Key × β)}
    (h : e ∈ l) : e.1 ∈ akeys l :=
  List.mem_map.mpr ⟨e, h, rfl⟩

theorem mem_mergeW {e : Key × Val} : ∀ {es : List (Key × Val)} {cs : List (Key × WriteOp)},
    e ∈ mergeW es cs → e.1 ∈ akeys es ∨ e.1 ∈ akeys cs := by
  intro es cs
  induction es, cs using mergeW.induct with
  | case1 cs =>
    rw [mergeW_nil_left]
    exact fun h => Or.inr (mem_dropDeletes h)
  | case2 x xs =>
    rw [mergeW_nil_right]
    exact fun h => Or.inl (mem_akeys_of_mem h)
  | case3 k1 v es k2 op cs hcmp ih =>
    rw [mergeW_lt v es op cs hcmp]
    intro h
    rcases List.mem_cons.mp h with h | h
    · exact Or.inl (by rw [h, akeys_cons]; exact List.mem_cons.mpr (Or.inl rfl))
    · rcases ih h with h | h
      · exact Or.inl (List.mem_cons.mpr (Or.inr h))
      · exact Or.inr h
  | case4 k1 v es k2 cs w hcmp ih =>
    rw [mergeW_eq_put v es w cs hcmp]
    intro h
    rcases List.mem_cons.mp h with h | h
    · exact Or.inr (by rw [h, akeys_cons]; exact List.mem_cons.mpr (Or.inl rfl))
    · rcases ih h with h | h
      · exact Or.inl (List.mem_cons.mpr (Or.inr h))
      · exact Or.inr (List.mem_cons.mpr (Or.inr h))
  | case5 k1 v es k2 cs hcmp ih =>
    rw [mergeW_eq_del v es cs hcmp]
    intro h
    rcases ih h with h | h
    · exact Or.inl (List.mem_cons.mpr (Or.inr h))
    · exact Or.inr (List.mem_cons.mpr (Or.inr h))
  | case6 k1 v es k2 cs w hcmp ih =>
    rw [mergeW_gt_put v es w cs hcmp]
    intro h
    rcases List.mem_cons.mp h with h | h
    · exact Or.inr (by rw [h, akeys_cons]; exact List.mem_cons.mpr (Or.inl rfl))
    · rcases ih h with h | h
      · exact Or.inl h
      · exact Or.inr (List.mem_cons.mpr (Or.inr h))
  | case7 k1 v es k2 cs hcmp ih =>
    rw [mergeW_gt_del v es cs hcmp]
    intro h
    rcases ih h with h | h
    · exact Or.inl h
    · exact Or.inr (List.mem_cons.mpr (Or.inr h))

theorem KSorted_dropDeletes {cs : List (Key × WriteOp)} (hcs : KSorted cs) :
    KSorted (dropDeletes cs) := by
  induction cs with
  | nil => exact KSorted_nil
  | cons e cs ih =>
    obtain ⟨k2, op⟩ := e
    obtain ⟨hlt, hcs2⟩ := KSorted_cons hcs
    cases op with
    | put v =>
      refine List.Pairwise.cons ?_ (ih hcs2)
      intro x hx
      obtain ⟨a, ha, hae⟩ := List.mem_map.mp (mem_dropDeletes hx)
      rw [← hae]
      exact hlt a ha
    | del =>
      exact ih hcs2

theorem KSorted_mergeW : ∀ {es : List (Key × Val)} {cs : List (Key × WriteOp)},
    KSorted es → KSorted cs → KSorted (mergeW es cs) := by
  intro es cs
  induction es, cs using mergeW.induct with
  | case1 cs =>
    rw [mergeW_nil_left]
    exact fun _ hcs => KSorted_dropDeletes hcs
  | case2 x xs =>
    rw [mergeW_nil_right]
    exact fun hes _ => hes
  | case3 k1 v es k2 op cs hcmp ih =>
    intro hes hcs
    obtain ⟨hles, hes2⟩ := KSorted_cons hes
    obtain ⟨hlcs, hcs2⟩ := KSorted_cons hcs
    rw [mergeW_lt v es op cs hcmp]
    refine List.Pairwise.cons ?_ (ih hes2 hcs)
    intro x hx
    rcases mem_mergeW hx with h | h
    · obtain ⟨a, ha, hae⟩ := List.mem_map.mp h
      rw [← hae]
      exact hles a ha
    · rw [akeys_cons] at h
      rcases List.mem_cons.mp h with h | h
      · rw [h]
        exact hcmp
      · obtain ⟨a, ha, hae⟩ := List.mem_map.mp h
        rw [← hae]
        exact keyLt_trans hcmp (hlcs a ha)
  | case4 k1 v es k2 cs w hcmp ih =>
    intro hes hcs
    obtain ⟨hles, hes2⟩ := KSorted_cons hes
    obtain ⟨hlcs, hcs2⟩ := KSorted_cons hcs
    have hk12 : k1 = k2 := (keyCmp_eq_iff _ _).mp hcmp
    rw [mergeW_eq_put v es w cs hcmp]
    refine List.Pairwise.cons ?_ (ih hes2 hcs2)
    intro x hx
    rcases mem_mergeW hx with h | h
    · obtain ⟨a, ha, hae⟩ := List.mem_map.mp h
      rw [← hae, ← hk12]
      exact hles a ha
    · obtain ⟨a, ha, hae⟩ := List.mem_map.mp h
      rw [← hae]
      exact hlcs a ha
  | case5 k1 v es k2 cs hcmp ih =>
    intro hes hcs
    rw [mergeW_eq_del v es cs hcmp]
    exact ih (KSorted_cons hes).2 (KSorted_cons hcs).2
  | case6 k1 v es k2 cs w hcmp ih =>
    intro hes hcs
    obtain ⟨hles, hes2⟩ := KSorted_cons hes
    obtain ⟨hlcs, hcs2⟩ := KSorted_cons hcs
    have hgt : keyLt k2 k1 := keyLt_of_keyCmp_gt hcmp
    rw [mergeW_gt_put v es w cs hcmp]
    refine List.Pairwise.cons ?_ (ih hes hcs2)
    intro x hx
    rcases mem_mergeW hx with h | h
    · rw [akeys_cons] at h
      rcases List.mem_cons.mp h with h | h
      · rw [h]
        exact hgt
      · obtain ⟨a, ha, hae⟩ := List.mem_map.mp h
        rw [← hae]
        exact keyLt_trans hgt (hles a ha)
    · obtain ⟨a, ha, hae⟩ := List.mem_map.mp h
      rw [← hae]
      exact hlcs a ha
  | case7 k1 v es k2 cs hcmp ih =>
    intro hes hcs
    rw [mergeW_gt_del v es cs hcmp]
    exact ih hes (KSorted_cons hcs).2

/-- Key lookup in the result of the overlay merge: the change map wins on
key equality, its deletes produce an absent key, and keys untouched by the
change map read through to the backing range. -/
theorem alookup_mergeW (k : Key) : ∀ (es : List (Key × Val)) (cs : List (Key × WriteOp)),
    KSorted es → KSorted cs →
    alookup k (mergeW es cs) =
      (match alookup k cs with
       | some (.put v) => some v
       | some .del => none
       | none => alookup k es) := by
  intro es cs
  induction es, cs using mergeW.induct with
  | case1 cs =>
    intro _ hcs
    rw [mergeW_nil_left, alookup_dropDeletes k cs hcs]
    cases alookup k cs with
    | none => rfl
    | some op => cases op <;> rfl
  | case2 x xs =>
    intro _ _
    rw [mergeW_nil_right]
    rfl
  | case3 k1 v es k2 op cs hcmp ih =>
    intro hes hcs
    obtain ⟨hles, hes2⟩ := KSorted_cons hes
    obtain ⟨hlcs, hcs2⟩ := KSorted_cons hcs
    rw [mergeW_lt v es op cs hcmp]
    by_cases hk1 : k1 = k
    · subst hk1
      have hnone : alookup k1 ((k2, op) :: cs) = none := by
        refine alookup_eq_none_of_lt ?_
        intro e he
        rcases List.mem_cons.mp he with h | h
        · rw [h]
          exact hcmp
        · exact keyLt_trans hcmp (hlcs e h)
      rw [hnone]
      simp [alookup]
    · simp only [alookup, if_neg hk1]
      rw [ih hes2 hcs]
      rfl
  | case4 k1 v es k2 cs w hcmp ih =>
    intro hes hcs
    obtain ⟨hles, hes2⟩ := KSorted_cons hes
    obtain ⟨hlcs, hcs2⟩ := KSorted_cons hcs
    rw [mergeW_eq_put v es w cs hcmp]
    have hk12 : k1 = k2 := (keyCmp_eq_iff _ _).mp hcmp
    subst hk12
    by_cases hk1 : k1 = k
    · subst hk1
      simp [alookup]
    · simp only [alookup, if_neg hk1]
      rw [ih hes2 hcs2]
  | case5 k1 v es k2 cs hcmp ih =>
    intro hes hcs
    obtain ⟨hles, hes2⟩ := KSorted_cons hes
    obtain ⟨hlcs, hcs2⟩ := KSorted_cons hcs
    rw [mergeW_eq_del v es cs hcmp]
    have hk12 : k1 = k2 := (keyCmp_eq_iff _ _).mp hcmp
    subst hk12
    by_cases hk1 : k1 = k
    · subst hk1
      rw [ih hes2 hcs2, alookup_eq_none_of_lt hlcs, alookup_eq_none_of_lt hles]
      simp [alookup]
    · simp only [alookup, if_neg hk1]
      rw [ih hes2 hcs2]
  | case6 k1 v es k2 cs w hcmp ih =>
    intro hes hcs
    obtain ⟨hlcs, hcs2⟩ := KSorted_cons hcs
    rw [mergeW_gt_put v es w cs hcmp]
    by_cases hk2 : k2 = k
    · subst hk2
      simp [alookup]
    · simp only [alookup, if_neg hk2]
      rw [ih hes hcs2]
      rfl
  | case7 k1 v es k2 cs hcmp ih =>
    intro hes hcs
    obtain ⟨hles, hes2⟩ := KSorted_cons hes
    obtain ⟨hlcs, hcs2⟩ := KSorted_cons hcs
    have hgt : keyLt k2 k1 := keyLt_of_keyCmp_gt hcmp
    rw [mergeW_gt_del v es cs hcmp]
    by_cases hk2 : k2 = k
    · subst hk2
      rw [ih hes hcs2, alookup_eq_none_of_lt hlcs]
      have hnone : alookup k2 ((k1, v) :: es) = none := by
        refine alookup_eq_none_of_lt ?_
        intro e he
        rcases List.mem_cons.mp he with h | h
        · rw [h]
          exact hgt
        · exact keyLt_trans hgt (hles e h)
      rw [hnone]
      simp [alookup]
    · simp only [alookup, if_neg hk2]
      rw [ih hes hcs2]
      rfl

theorem mem_mergeOps {e : Key × WriteOp} : ∀ {ls hs : List (Key × WriteOp)},
    e ∈ mergeOps ls hs → e.1 ∈ akeys ls ∨ e.1 ∈ akeys hs := by
  intro ls hs
  induction ls, hs using mergeOps.induct with
  | case1 hs =>
    rw [mergeOps_nil_left]
    exact fun h => Or.inr (mem_akeys_of_mem h)
  | case2 x xs =>
    rw [mergeOps_nil_right]
    exact fun h => Or.inl (mem_akeys_of_mem h)
  | case3 k1 o ls k2 o2 hs hcmp ih =>
    rw [mergeOps_lt o ls o2 hs hcmp]
    intro h
    rcases List.mem_cons.mp h with h | h
    · exact Or.inl (by rw [h, akeys_cons]; exact List.mem_cons.mpr (Or.inl rfl))
    · rcases ih h with h | h
      · exact Or.inl (List.mem_cons.mpr (Or.inr h))
      · exact Or.inr h
  | case4 k1 o ls k2 o2 hs hcmp ih =>
    rw [mergeOps_eq o ls o2 hs hcmp]
    intro h
    rcases List.mem_cons.mp h with h | h
    · exact Or.inr (by rw [h, akeys_cons]; exact List.mem_cons.mpr (Or.inl rfl))
    · rcases ih h with h | h
      · exact Or.inl (List.mem_cons.mpr (Or.inr h))
      · exact Or.inr (List.mem_cons.mpr (Or.inr h))
  | case5 k1 o ls k2 o2 hs hcmp ih =>
    rw [mergeOps_gt o ls o2 hs hcmp]
    intro h
    rcases List.mem_cons.mp h with h | h
    · exact Or.inr (by rw [h, akeys_cons]; exact List.mem_cons.mpr (Or.inl rfl))
    · rcases ih h with h | h
      · exact Or.inl h
      · exact Or.inr (List.mem_cons.mpr (Or.inr h))

theorem KSorted_mergeOps : ∀ {ls hs : List (Key × WriteOp)},
    KSorted ls → KSorted hs → KSorted (mergeOps ls hs) := by
  intro ls hs
  induction ls, hs using mergeOps.induct with
  | case1 hs =>
    rw [mergeOps_nil_left]
    exact fun _ hhs => hhs
  | case2 x xs =>
    rw [mergeOps_nil_right]
    exact fun hls _ => hls
  | case3 k1 o ls k2 o2 hs hcmp ih =>
    intro hls hhs
    obtain ⟨hlls, hls2⟩ := KSorted_cons hls
    obtain ⟨hlhs, hhs2⟩ := KSorted_cons hhs
    rw [mergeOps_lt o ls o2 hs hcmp]
    refine List.Pairwise.cons ?_ (ih hls2 hhs)
    intro x hx
    rcases mem_mergeOps hx with h | h
    · obtain ⟨a, ha, hae⟩ := List.mem_map.mp h
      rw [← hae]
      exact hlls a ha
    · rw [akeys_cons] at h
      rcases List.mem_cons.mp h with h | h
      · rw [h]
        exact hcmp
      · obtain ⟨a, ha, hae⟩ := List.mem_map.mp h
        rw [← hae]
        exact keyLt_trans hcmp (hlhs a ha)
  | case4 k1 o ls k2 o2 hs hcmp ih =>
    intro hls hhs
    obtain ⟨hlls, hls2⟩ := KSorted_cons hls
    obtain ⟨hlhs, hhs2⟩ := KSorted_cons hhs
    have hk12 : k1 = k2 := (keyCmp_eq_iff _ _).mp hcmp
    rw [mergeOps_eq o ls o2 hs hcmp]
    refine List.Pairwise.cons ?_ (ih hls2 hhs2)
    intro x hx
    rcases mem_mergeOps hx with h | h
    · obtain ⟨a, ha, hae⟩ := List.mem_map.mp h
      rw [← hae, ← hk12]
      exact hlls a ha
    · obtain ⟨a, ha, hae⟩ := List.mem_map.mp h
      rw [← hae]
      exact hlhs a ha
  | case5 k1 o ls k2 o2 hs hcmp ih =>
    intro hls hhs
    obtain ⟨hlls, hls2⟩ := KSorted_cons hls
    obtain ⟨hlhs, hhs2⟩ := KSorted_cons hhs
    have hgt : keyLt k2 k1 := keyLt_of_keyCmp_gt hcmp
    rw [mergeOps_gt o ls o2 hs hcmp]
    refine List.Pairwise.cons ?_ (ih hls hhs2)
    intro x hx
    rcases mem_mergeOps hx with h | h
    · rw [akeys_cons] at h
      rcases List.mem_cons.mp h with h | h
      · rw [h]
        exact hgt
      · obtain ⟨a, ha, hae⟩ := List.mem_map.mp h
        rw [← hae]
        exact keyLt_trans hgt (hlls a ha)
    · obtain ⟨a, ha, hae⟩ := List.mem_map.mp h
      rw [← hae]
      exact hlhs a ha

/-- Key lookup in the flattening of two ordered change maps: the second
(upper) map wins on key equality. -/
theorem alookup_mergeOps (k : Key) : ∀ (ls hs : List (Key × WriteOp)),
    KSorted ls → KSorted hs →
    alookup k (mergeOps ls hs) =
      (match alookup k hs with
       | some o => some o
       | none => alookup k ls) := by
  intro ls hs
  induction ls, hs using mergeOps.induct with
  | case1 hs =>
    intro _ _
    rw [mergeOps_nil_left]
    cases alookup k hs <;> rfl
  | case2 x xs =>
    intro _ _
    rw [mergeOps_nil_right]
    rfl
  | case3 k1 o ls k2 o2 hs hcmp ih =>
    intro hls hhs
    obtain ⟨hlls, hls2⟩ := KSorted_cons hls
    obtain ⟨hlhs, hhs2⟩ := KSorted_cons hhs
    rw [mergeOps_lt o ls o2 hs hcmp]
    by_cases hk1 : k1 = k
    · subst hk1
      have hnone : alookup k1 ((k2, o2) :: hs) = none := by
        refine alookup_eq_none_of_lt ?_
        intro e he
        rcases List.mem_cons.mp he with h | h
        · rw [h]
          exact hcmp
        · exact keyLt_trans hcmp (hlhs e h)
      rw [hnone]
      simp [alookup]
    · simp only [alookup, if_neg hk1]
      rw [ih hls2 hhs]
      rfl
  | case4 k1 o ls k2 o2 hs hcmp ih =>
    intro hls hhs
    obtain ⟨hlls, hls2⟩ := KSorted_cons hls
    obtain ⟨hlhs, hhs2⟩ := KSorted_cons hhs
    rw [mergeOps_eq o ls o2 hs hcmp]
    have hk12 : k1 = k2 := (keyCmp_eq_iff _ _).mp hcmp
    subst hk12
    by_cases hk1 : k1 = k
    · subst hk1
      simp [alookup]
    · simp only [alookup, if_neg hk1]
      rw [ih hls2 hhs2]
  | case5 k1 o ls k2 o2 hs hcmp ih =>
    intro hls hhs
    obtain ⟨hlls, hls2⟩ := KSorted_cons hls
    obtain ⟨hlhs, hhs2⟩ := KSorted_cons hhs
    have hgt : keyLt k2 k1 := keyLt_of_keyCmp_gt hcmp
    rw [mergeOps_gt o ls o2 hs hcmp]
    by_cases hk2 : k2 = k
    · subst hk2
      simp [alookup]
    · simp only [alookup, if_neg hk2]
      rw [ih hls hhs2]
      rfl


/-- Modelled from the spec: a snapshot is an immutable read view pinned to
a single committed version; `none` is the pre-genesis state of a freshly
initialized storage. -/
structure Snapshot where
  version : Option Nat
deriving DecidableEq, Repr

/-- Modelled from the spec: the top-level storage coordinator.  The
backend retains the committed key-value map of every version (the
versioned JMT of the main substore), indexed by version number; nothing is
ever overwritten, commits only append. -/
structure Storage where
  backend : List (List (Key × Val))
deriving DecidableEq, Repr

/-- Modelled from the spec: the latest committed version; `none`
(pre-genesis) when nothing has been committed. -/
def Storage.version (st : Storage) : Option Nat :=
  match st.backend.length with
  | 0 => none
  | n + 1 => some n

/-- `Storage::state`: a snapshot pinned to the current version. -/
def Storage.state (st : Storage) : Snapshot :=
  { version := st.version }

/-- `Storage::load` on a fresh directory: empty backend, pre-genesis. -/
def Storage.load : Storage :=
  { backend := [] }

/-- The committed key-value map a snapshot reads: empty pre-genesis,
otherwise the backend's map at the pinned version. -/
def snapshotEntries (st : Storage) (s : Snapshot) : List (Key × Val) :=
  match s.version with
  | none => []
  | some v => st.backend.getD v []

/-- `Snapshot::get_raw`: a point read at the pinned version. -/
def Snapshot.get_raw (st : Storage) (s : Snapshot) (k : Key) : Option Val :=
  alookup k (snapshotEntries st s)

/-- Modelled from the spec: a `StateDelta` is a chain of overlay layers
above a parent snapshot; each layer holds an ordered change map
(`unwritten_changes`). -/
inductive Delta where
  | base (s : Snapshot)
  | layer (parent : Delta) (changes : List (Key × WriteOp))
deriving DecidableEq, Repr

/-- The snapshot at the bottom of a delta's overlay chain. -/
def Delta.baseSnap : Delta → Snapshot
  | .base s => s
  | .layer d _ => d.baseSnap

/-- The write op of the overlay layer closest to the top that mentions the
key, if any. -/
def Delta.firstOp : Delta → Key → Option WriteOp
  | .base _, _ => none
  | .layer d cs, k =>
    match alookup k cs with
    | some op => some op
    | none => d.firstOp k

/-- `StateDelta::get_raw`, modelled from the spec: walk the overlay chain
from the top; a Delete entry terminates the walk as `none`, a Put entry as
`some`; falling through performs the snapshot read. -/
def Delta.get_raw (st : Storage) : Delta → Key → Option Val
  | .base s, k => Snapshot.get_raw st s k
  | .layer d cs, k =>
    match alookup k cs with
    | some (.put v) => some v
    | some .del => none
    | none => Delta.get_raw st d k

/-- Delta well-formedness: every overlay layer is an ordered map. -/
def Delta.WF : Delta → Prop
  | .base _ => True
  | .layer d cs => KSorted cs ∧ Delta.WF d

instance {β : Type} (l : List (Key × β)) : Decidable (KSorted l) := by
  unfold KSorted
  infer_instance

instance Delta.decWF : (d : Delta) → Decidable d.WF
  | .base _ => isTrue trivial
  | .layer d cs =>
    have : Decidable d.WF := Delta.decWF d
    inferInstanceAs (Decidable (KSorted cs ∧ d.WF))

/-- Storage well-formedness: every committed map is an ordered map. -/
def Storage.WF (st : Storage) : Prop :=
  ∀ e ∈ st.backend, KSorted e

instance (st : Storage) : Decidable st.WF := by
  unfold Storage.WF
  infer_instance

/-- Modelled from the spec commit pipeline: materialize the ordered merged
change set by walking from the delta down to (but not including) the
snapshot, flattening into per-key final ops (upper layers win). -/
def Delta.flattenOps : Delta → List (Key × WriteOp)
  | .base _ => []
  | .layer d cs => mergeOps d.flattenOps cs

/-- `Storage::commit`, modelled from the spec: the delta must be built on
the current snapshot (a stale parent is a version error, `none` here); the
flattened ops are applied to the current committed map and the result is
appended to the backend as the new version; the previous versions are left
untouched. -/
def Storage.commit (st : Storage) (d : Delta) : Option Storage :=
  if d.baseSnap = st.state then
    some { backend := st.backend ++ [mergeW (snapshotEntries st st.state) d.flattenOps] }
  else none

/-- A sequence of commits, each on the storage produced by the previous
one. -/
def commitMany (st : Storage) : List Delta → Option Storage
  | [] => some st
  | d :: ds =>
    match st.commit d with
    | some st2 => commitMany st2 ds
    | none => none

/-- The entries of an ordered map whose key begins with `p`. -/
def filterPfx {β : Type} (p : Key) (l : List (Key × β)) : List (Key × β) :=
  l.filter fun e => leadsWith e.1 p

/-- `prefix_raw`, modelled from the spec: the snapshot's ordered range of
keys beginning with `p`, merged with each overlay layer's change entries
over the same range; the overlay wins on key equality and deletes are
filtered from the output. -/
def prefixRaw (st : Storage) (p : Key) : Delta → List (Key × Val)
  | .base s => filterPfx p (snapshotEntries st s)
  | .layer d cs => mergeW (prefixRaw st p d) (filterPfx p cs)

theorem alookup_filterPfx {β : Type} (k p : Key) (l : List (Key × β)) :
    alookup k (filterPfx p l) =
      if leadsWith k p = true then alookup k l else none := by
  induction l with
  | nil =>
    simp only [filterPfx, List.filter_nil]
    cases hkp : leadsWith k p <;> rfl
  | cons e l ih =>
    obtain ⟨k2, v⟩ := e
    by_cases hp2 : leadsWith k2 p = true
    · rw [show filterPfx p ((k2, v) :: l) = (k2, v) :: filterPfx p l from by
        simp [filterPfx, hp2]]
      by_cases hk2 : k2 = k
      · subst hk2
        simp [alookup, hp2]
      · simp only [alookup, if_neg hk2]
        exact ih
    · rw [show filterPfx p ((k2, v) :: l) = filterPfx p l from by
        simp [filterPfx, hp2]]
      by_cases hk2 : k2 = k
      · subst hk2
        rw [ih, if_neg hp2]
        cases hkp : leadsWith k2 p with
        | false => rfl
        | true => exact absurd hkp hp2
      · simp only [alookup, if_neg hk2]
        exact ih

theorem KSorted_filterPfx {β : Type} (p : Key) {l : List (Key × β)} (hl : KSorted l) :
    KSorted (filterPfx p l) :=
  List.Pairwise.filter _ hl

theorem mem_akeys_filterPfx {β : Type} {k p : Key} {l : List (Key × β)}
    (h : k ∈ akeys (filterPfx p l)) : leadsWith k p = true := by
  obtain ⟨a, ha, hae⟩ := List.mem_map.mp h
  rw [← hae]
  exact (List.mem_filter.mp ha).2

theorem getD_mem_or_default {α : Type} :
    ∀ (l : List α) (i : Nat) (dflt : α), l.getD i dflt ∈ l ∨ l.getD i dflt = dflt
  | [], _, _ => Or.inr rfl
  | a :: l, 0, dflt => Or.inl (List.mem_cons_self _ _)
  | a :: l, i + 1, dflt => by
    rw [List.getD_cons_succ]
    rcases getD_mem_or_default l i dflt with h | h
    · exact Or.inl (List.mem_cons_of_mem _ h)
    · exact Or.inr h

theorem KSorted_snapshotEntries {st : Storage} (hst : Storage.WF st) (s : Snapshot) :
    KSorted (snapshotEntries st s) := by
  unfold snapshotEntries
  cases s.version with
  | none => exact KSorted_nil
  | some v =>
    show KSorted (st.backend.getD v [])
    rcases getD_mem_or_default st.backend v [] with h | h
    · exact hst _ h
    · rw [h]
      exact KSorted_nil

theorem KSorted_flattenOps : ∀ {d : Delta}, Delta.WF d → KSorted d.flattenOps
  | .base _, _ => KSorted_nil
  | .layer d cs, h =>
    KSorted_mergeOps (KSorted_flattenOps h.2) h.1

/-- The flattened change set of a delta records exactly the topmost write
op of the overlay chain for every key. -/
theorem alookup_flattenOps (k : Key) : ∀ {d : Delta}, Delta.WF d →
    alookup k d.flattenOps = d.firstOp k
  | .base _, _ => rfl
  | .layer d cs, h => by
    show alookup k (mergeOps d.flattenOps cs) = _
    rw [alookup_mergeOps k _ _ (KSorted_flattenOps h.2) h.1,
      alookup_flattenOps k h.2]
    rfl

theorem KSorted_prefixRaw {st : Storage} (hst : Storage.WF st) (p : Key) :
    ∀ {d : Delta}, Delta.WF d → KSorted (prefixRaw st p d)
  | .base s, _ => KSorted_filterPfx p (KSorted_snapshotEntries hst s)
  | .layer d cs, h =>
    KSorted_mergeW (KSorted_prefixRaw hst p h.2) (KSorted_filterPfx p h.1)

theorem keys_prefixRaw {st : Storage} {p k : Key} :
    ∀ {d : Delta}, k ∈ akeys (prefixRaw st p d) → leadsWith k p = true
  | .base s, h => mem_akeys_filterPfx h
  | .layer d cs, h => by
    obtain ⟨a, ha, hae⟩ := List.mem_map.mp h
    rcases mem_mergeW ha with h2 | h2
    · exact keys_prefixRaw (hae ▸ h2)
    · exact mem_akeys_filterPfx (hae ▸ h2)

theorem delta_get_raw_layer (st : Storage) (d : Delta) (cs : List (Key × WriteOp)) (k : Key) :
    Delta.get_raw st (.layer d cs) k =
      (match alookup k cs with
       | some (.put v) => some v
       | some .del => none
       | none => Delta.get_raw st d k) := rfl

theorem delta_firstOp_layer (d : Delta) (cs : List (Key × WriteOp)) (k : Key) :
    Delta.firstOp (.layer d cs) k =
      (match alookup k cs with
       | some op => some op
       | none => d.firstOp k) := rfl

/-- The merged prefix stream contains exactly the delta's live reads over
the requested range. -/
theorem alookup_prefixRaw (k : Key) {st : Storage} (hst : Storage.WF st) (p : Key) :
    ∀ {d : Delta}, Delta.WF d →
    alookup k (prefixRaw st p d) =
      if leadsWith k p = true then Delta.get_raw st d k else none
  | .base s, _ => by
    show alookup k (filterPfx p (snapshotEntries st s)) = _
    rw [alookup_filterPfx]
    rfl
  | .layer d cs, h => by
    show alookup k (mergeW (prefixRaw st p d) (filterPfx p cs)) = _
    rw [alookup_mergeW k _ _ (KSorted_prefixRaw hst p h.2) (KSorted_filterPfx p h.1),
      alookup_filterPfx, alookup_prefixRaw k hst p h.2, delta_get_raw_layer]
    by_cases hkp : leadsWith k p = true
    · simp only [if_pos hkp]
    · simp only [if_neg hkp]

/-- The overlay walk of `get_raw` is determined by the topmost write op
for the key: a Put short-circuits to its value, a Delete to an absent
value, and an untouched key reads through to the parent snapshot. -/
theorem delta_get_raw_walk (st : Storage) : ∀ (d : Delta) (k : Key),
    Delta.get_raw st d k =
      (match d.firstOp k with
       | some (.put v) => some v
       | some .del => none
       | none => Snapshot.get_raw st d.baseSnap k)
  | .base s, k => rfl
  | .layer d cs, k => by
    rw [delta_get_raw_layer, delta_firstOp_layer, delta_get_raw_walk st d k]
    cases halo : alookup k cs with
    | none =>
      simp only [halo]
      rfl
    | some op => cases op <;> simp only [halo]

/-- Ordered maps are determined by their lookup function. -/
theorem KSorted_ext {β : Type} : ∀ {l1 l2 : List (Key × β)},
    KSorted l1 → KSorted l2 → (∀ k, alookup k l1 = alookup k l2) → l1 = l2
  | [], [], _, _, _ => rfl
  | [], (k2, v2) :: l2, _, _, hk => by
    have := hk k2
    simp [alookup] at this
  | (k1, v1) :: l1, [], _, _, hk => by
    have := hk k1
    simp [alookup] at this
  | (k1, v1) :: l1, (k2, v2) :: l2, h1, h2, hk => by
    obtain ⟨hl1, h1t⟩ := KSorted_cons h1
    obtain ⟨hl2, h2t⟩ := KSorted_cons h2
    have hkk : k1 = k2 := by
      by_contra hne
      have hne2 : ¬ k2 = k1 := fun h => hne h.symm
      have e1 : alookup k1 l2 = some v1 := by
        have := hk k1
        simp only [alookup, if_pos rfl, if_neg hne2] at this
        exact this.symm
      have e2 : alookup k2 l1 = some v2 := by
        have := hk k2
        simp only [alookup, if_pos rfl, if_neg hne] at this
        exact this
      have m1 : (k1, v1) ∈ l2 := (mem_iff_alookup h2t).mpr e1
      have m2 : (k2, v2) ∈ l1 := (mem_iff_alookup h1t).mpr e2
      exact absurd (keyLt_trans (hl1 _ m2) (hl2 _ m1)) (keyLt_irrefl k1)
    subst hkk
    have hv : v1 = v2 := by
      have := hk k1
      simpa [alookup] using this
    subst hv
    refine congrArg _ (KSorted_ext h1t h2t fun k => ?_)
    by_cases hk1 : k1 = k
    · subst hk1
      rw [alookup_eq_none_of_lt hl1, alookup_eq_none_of_lt hl2]
    · have := hk k
      simpa [alookup, hk1] using this

theorem commit_eq_some {st st2 : Storage} {d : Delta} (hc : st.commit d = some st2) :
    d.baseSnap = st.state ∧
    st2.backend = st.backend ++ [mergeW (snapshotEntries st st.state) d.flattenOps] := by
  unfold Storage.commit at hc
  by_cases hg : d.baseSnap = st.state
  · rw [if_pos hg] at hc
    exact ⟨hg, (congrArg Storage.backend (Option.some.inj hc)).symm⟩
  · rw [if_neg hg] at hc
    exact absurd hc (by simp)

theorem getD_append_lt {α : Type} :
    ∀ (l l2 : List α) (i : Nat), i < l.length → ∀ (dflt : α),
      (l ++ l2).getD i dflt = l.getD i dflt
  | [], _, i, h, _ => absurd h (Nat.not_lt_zero i)
  | a :: l, l2, 0, _, dflt => rfl
  | a :: l, l2, i + 1, h, dflt => by
    rw [List.cons_append, List.getD_cons_succ, List.getD_cons_succ]
    exact getD_append_lt l l2 i (Nat.lt_of_succ_lt_succ h) dflt

theorem getD_append_length {α : Type} :
    ∀ (l : List α) (x : α) (l2 : List α) (dflt : α),
      (l ++ x :: l2).getD l.length dflt = x
  | [], _, _, _ => rfl
  | a :: l, x, l2, dflt => by
    rw [List.cons_append, List.length_cons, List.getD_cons_succ]
    exact getD_append_length l x l2 dflt

theorem version_commit {st st2 : Storage} {d : Delta} (hc : st.commit d = some st2) :
    Storage.version st2 = some st.backend.length := by
  unfold Storage.version
  rw [(commit_eq_some hc).2, List.length_append]
  rfl

theorem snapshotEntries_commit {st st2 : Storage} {d : Delta} (hc : st.commit d = some st2) :
    snapshotEntries st2 st2.state =
      mergeW (snapshotEntries st st.state) d.flattenOps := by
  show (match (Storage.state st2).version with
        | none => []
        | some v => st2.backend.getD v []) = _
  rw [show (Storage.state st2).version = some st.backend.length from version_commit hc]
  show st2.backend.getD st.backend.length [] = _
  rw [(commit_eq_some hc).2]
  exact getD_append_length st.backend _ [] []

/-- C1: after a successful `commit(delta)` of a delta built on the current
snapshot, a snapshot from the fresh `state()` returns, for every key, the
same `get_raw` result as reads against the delta immediately before the
commit, and for every range the same `prefix_raw` stream. -/
theorem commit_reads_match_delta (st st2 : Storage) (d : Delta)
    (hst : Storage.WF st) (hd : Delta.WF d) (hc : st.commit d = some st2) :
    (∀ k, Snapshot.get_raw st2 st2.state k = Delta.get_raw st d k) ∧
    (∀ p, prefixRaw st2 p (.base st2.state) = prefixRaw st p d) := by
  obtain ⟨hg, hb⟩ := commit_eq_some hc
  have hget : ∀ k, Snapshot.get_raw st2 st2.state k = Delta.get_raw st d k := by
    intro k
    show alookup k (snapshotEntries st2 st2.state) = _
    rw [snapshotEntries_commit hc,
      alookup_mergeW k _ _ (KSorted_snapshotEntries hst _) (KSorted_flattenOps hd),
      alookup_flattenOps k hd, delta_get_raw_walk st d k, hg]
    rfl
  refine ⟨hget, fun p => ?_⟩
  have hst2 : KSorted (snapshotEntries st2 st2.state) := by
    rw [snapshotEntries_commit hc]
    exact KSorted_mergeW (KSorted_snapshotEntries hst _) (KSorted_flattenOps hd)
  refine KSorted_ext (KSorted_filterPfx p hst2) (KSorted_prefixRaw hst p hd) fun k => ?_
  show alookup k (filterPfx p (snapshotEntries st2 st2.state)) = _
  rw [alookup_filterPfx, alookup_prefixRaw k hst p hd]
  by_cases hkp : leadsWith k p = true
  · rw [if_pos hkp, if_pos hkp]
    exact hget k
  · rw [if_neg hkp, if_neg hkp]

/-- The one-commit storage produced by committing an empty delta to a
fresh storage. -/
def stOne : Storage := { backend := [[]] }

theorem load_commit_base :
    Storage.load.commit (Delta.base (Storage.state Storage.load)) = some stOne := by
  unfold Storage.commit
  rw [if_pos (show (Delta.base (Storage.state Storage.load)).baseSnap =
    Storage.state Storage.load from rfl)]
  show some (Storage.mk ([] ++ [mergeW [] []])) = _
  rw [mergeW_nil_left]
  rfl

/-- Witness for C1: committing an empty delta on a fresh storage; the new
snapshot's read of the empty key agrees with the delta's. -/
theorem commit_reads_match_delta_witness :
    Snapshot.get_raw stOne (Storage.state stOne) [] =
      Delta.get_raw Storage.load (Delta.base (Storage.state Storage.load)) [] :=
  (commit_reads_match_delta Storage.load stOne (Delta.base (Storage.state Storage.load))
    (by decide) trivial load_commit_base).1 []

/-- C4: `get_raw` on a delta walks the overlay chain from the top delta
toward the snapshot: if the first (topmost) entry found for the key is a
Delete the result is `none`, if it is a Put the result is its bytes, and
when no overlay in the chain mentions the key, the result is the parent
snapshot's read. -/
theorem delta_get_raw_spec (st : Storage) (d : Delta) (k : Key) :
    Delta.get_raw st d k =
      (match d.firstOp k with
       | some (.put v) => some v
       | some .del => none
       | none => Snapshot.get_raw st d.baseSnap k) :=
  delta_get_raw_walk st d k

/-- C5: the prefix stream of a state (a bare snapshot or a delta) yields
keys in strictly ascending lexicographic order (hence each key appears at
most once), every yielded key begins with the requested range, and an
entry is yielded exactly when the key lies in the range and the state's
`get_raw` (overlay over snapshot, overlay winning, deletes masking) is
live at it with that value. -/
theorem prefix_stream_spec (st : Storage) (d : Delta) (p : Key)
    (hst : Storage.WF st) (hd : Delta.WF d) :
    List.Pairwise (fun a b : Key × Val => keyLt a.1 b.1) (prefixRaw st p d) ∧
    (∀ e ∈ prefixRaw st p d, p <+: e.1) ∧
    (∀ k v, ((k, v) ∈ prefixRaw st p d ↔ p <+: k ∧ Delta.get_raw st d k = some v)) := by
  have hsorted : KSorted (prefixRaw st p d) := KSorted_prefixRaw hst p hd
  refine ⟨hsorted, ?_, ?_⟩
  · intro e he
    exact (leadsWith_iff _ _).mp (keys_prefixRaw (mem_akeys_of_mem he))
  · intro k v
    rw [mem_iff_alookup hsorted, alookup_prefixRaw k hst p hd]
    by_cases hkp : leadsWith k p = true
    · rw [if_pos hkp]
      simp [(leadsWith_iff k p).mp hkp]
    · rw [if_neg hkp]
      have hnp : ¬ p <+: k := fun hc => hkp ((leadsWith_iff k p).mpr hc)
      simp [hnp]

/-- A one-version storage with a single committed pair, and a delta
deleting that pair, for the C5 witness. -/
def exSt : Storage := { backend := [[([0], [1])]] }

def exD : Delta := .layer (.base (Storage.state exSt)) [([0], .del)]

/-- Witness for C5 at a storage holding one pair under a deleting overlay. -/
theorem prefix_stream_spec_witness :
    (([0], [1]) ∈ prefixRaw exSt [] exD ↔
      ([] : Key) <+: [0] ∧ Delta.get_raw exSt exD [0] = some [1]) :=
  (prefix_stream_spec exSt exD [] (by decide) (by decide)).2.2 [0] [1]

theorem commitMany_backend_extend :
    ∀ {ds : List Delta} {st st2 : Storage},
      commitMany st ds = some st2 → ∃ L, st2.backend = st.backend ++ L
  | [], st, st2, h => by
    have hst : st = st2 := Option.some.inj h
    exact ⟨[], by rw [← hst, List.append_nil]⟩
  | d :: ds, st, st2, h => by
    unfold commitMany at h
    cases hc : st.commit d with
    | none =>
      rw [hc] at h
      exact absurd h (by simp)
    | some stm =>
      rw [hc] at h
      obtain ⟨L, hL⟩ := commitMany_backend_extend h
      exact ⟨[mergeW (snapshotEntries st st.state) d.flattenOps] ++ L,
        by rw [hL, (commit_eq_some hc).2, List.append_assoc]⟩

/-- C6: a snapshot taken before a commit keeps answering `get_raw` with
the pre-commit values, after that commit and after any number of further
commits: commits only append new versions to the backend, never touching
the version an existing snapshot is pinned to. -/
theorem snapshot_fork_independence (st st2 st3 : Storage) (d : Delta) (ds : List Delta)
    (k : Key) (hc : st.commit d = some st2) (hm : commitMany st2 ds = some st3) :
    Snapshot.get_raw st3 st.state k = Snapshot.get_raw st st.state k := by
  obtain ⟨L, hL⟩ := commitMany_backend_extend hm
  have hb3 : st3.backend = st.backend ++
      ([mergeW (snapshotEntries st st.state) d.flattenOps] ++ L) := by
    rw [hL, (commit_eq_some hc).2, List.append_assoc]
  show alookup k (snapshotEntries st3 st.state) = alookup k (snapshotEntries st st.state)
  unfold snapshotEntries
  cases hv : (Storage.state st).version with
  | none => rfl
  | some v =>
    show alookup k (st3.backend.getD v []) = alookup k (st.backend.getD v [])
    have hlen : st.backend.length = v + 1 := by
      have hv2 : Storage.version st = some v := hv
      unfold Storage.version at hv2
      cases hbl : st.backend.length with
      | zero =>
        rw [hbl] at hv2
        exact absurd hv2 (by simp)
      | succ n =>
        rw [hbl] at hv2
        have hnv : n = v := by simpa using hv2
        omega
    rw [hb3, getD_append_lt st.backend _ v (by omega) []]

/-- The storage after committing a second empty delta on `stOne`. -/
def stTwo : Storage := { backend := [[], []] }

theorem stOne_commit_base :
    stOne.commit (Delta.base (Storage.state stOne)) = some stTwo := by
  unfold Storage.commit
  rw [if_pos (show (Delta.base (Storage.state stOne)).baseSnap =
    Storage.state stOne from rfl)]
  show some (Storage.mk ([[]] ++ [mergeW [] []])) = _
  rw [mergeW_nil_left]
  rfl

/-- Witness for C6: the pre-genesis snapshot of `stOne` reads the same
through `stTwo` after a further commit. -/
theorem snapshot_fork_independence_witness :
    Snapshot.get_raw stTwo (Storage.state stOne) [] =
      Snapshot.get_raw stOne (Storage.state stOne) [] :=
  snapshot_fork_independence stOne stTwo stTwo (Delta.base (Storage.state stOne)) [] []
    stOne_commit_base rfl

/-- C8: a fresh storage is pre-genesis (its snapshot has no version);
every successful commit advances the version to 0 when pre-genesis and to
v + 1 from version v, so the first commit yields version 0 and the second
version 1. -/
theorem version_progression :
    (Storage.state Storage.load).version = none ∧
    (∀ (st : Storage) (d : Delta) (st2 : Storage), st.commit d = some st2 →
      (Storage.state st2).version =
        some (match (Storage.state st).version with
              | none => 0
              | some v => v + 1)) := by
  refine ⟨rfl, ?_⟩
  intro st d st2 hc
  rw [show (Storage.state st2).version = some st.backend.length from version_commit hc]
  show _ = some (match Storage.version st with
                 | none => 0
                 | some v => v + 1)
  unfold Storage.version
  cases hbl : st.backend.length with
  | zero => rfl
  | succ n => rfl

/-- Witness for C8: the first commit on a fresh storage yields version 0. -/
theorem version_progression_witness : (Storage.state stOne).version = some 0 :=
  version_progression.2 Storage.load (Delta.base (Storage.state Storage.load)) stOne
    load_commit_base

end Penumbra
